import Mathlib

/-!
Verification of the chord transposition engine of `src/app.py`.

The engine consists of:
* two pitch-class naming tables `NOTES_SHARP` and `NOTES_FLAT` (app.py lines 12-16),
* a compiled pattern `CHORD_REGEX = \(([A-G][#b]?(?:m|maj7|m7|sus4|sus2|dim|aug|7)?)\)`
  (app.py line 18), embedded here as the deterministic matcher `matchAt`
  (Python `re` backtracking on this pattern is deterministic because every
  alternative must be followed by the literal `)`),
* `transpose_root` (app.py lines 20-35), which can raise Python's built-in
  `ValueError` from `NOTES_FLAT.index(base)` (line 31); fallible code is
  embedded with `Except PyError`,
* `transpose_text` (app.py lines 37-42), a left-to-right non-overlapping
  regex substitution, embedded as the fuel-indexed scanner `subAux`
  (the fuel is the length of the remaining text, so it never runs out),
* the capo update `capo = (capo - steps) % 12` (app.py line 203).
-/

namespace Transposer

/-- Errors the Python code can raise: `ValueError` from `list.index` (app.py
line 31) and `IndexError` from list subscripting. No other error type (in
particular no `InvalidRootError`) is defined anywhere in the source. -/
inductive PyError where
  | valueError
  | indexError
deriving DecidableEq, Repr

/-- Sharp naming table, app.py lines 12-13 (two lines in the source, joined
here by list append). -/
def NOTES_SHARP : List String :=
  ["C", "C#", "D", "D#", "E", "F"] ++ ["F#", "G", "G#", "A", "A#", "B"]

/-- Flat naming table, app.py lines 15-16. -/
def NOTES_FLAT : List String :=
  ["C", "Db", "D", "Eb", "E", "F", "Gb", "G", "Ab", "A", "Bb", "B"]

/-- The sharp table as lists of characters, for the character-level scanner. -/
def notesSharpL : List (List Char) := NOTES_SHARP.map String.data

/-- The flat table as lists of characters. -/
def notesFlatL : List (List Char) := NOTES_FLAT.map String.data

/-- The character class `[A-G]` of `CHORD_REGEX` (app.py line 18): exactly the
seven upper-case letters A..G. -/
def ROOT_LETTERS : List Char := ['A', 'B', 'C', 'D', 'E', 'F', 'G']

/-- Membership in the `[A-G]` character class. -/
def isRootLetter (c : Char) : Bool := ROOT_LETTERS.contains c

/-- The suffix alternation `m|maj7|m7|sus4|sus2|dim|aug|7` of `CHORD_REGEX`
(app.py line 18), in the regex's alternative order. -/
def SUFFIXES : List (List Char) :=
  [['m'], ['m', 'a', 'j', '7'], ['m', '7'],
   ['s', 'u', 's', '4'], ['s', 'u', 's', '2'],
   ['d', 'i', 'm'], ['a', 'u', 'g'], ['7']]

/-- Strip a literal character sequence from the front of a list,
returning the remainder on success. -/
def stripLead : List Char → List Char → Option (List Char)
  | [], l => some l
  | _ :: _, [] => none
  | p :: ps, c :: cs => if c = p then stripLead ps cs else none

/-- Try one suffix alternative: the regex engine commits to a suffix only if
the literal `)` follows it immediately. -/
def trySuf (s l : List Char) : Option (List Char × List Char) :=
  match stripLead (s ++ [')']) l with
  | some r => some (s, r)
  | none => none

/-- Try the suffix alternatives in the regex's order, falling back to the empty
suffix (the `?` of the group), which also requires the literal `)`. -/
def tryAll : List (List Char) → List Char → Option (List Char × List Char)
  | [], l =>
    match l with
    | ')' :: r => some ([], r)
    | _ => none
  | s :: ss, l =>
    match trySuf s l with
    | some v => some v
    | none => tryAll ss l

/-- Matching of `(?:m|maj7|m7|sus4|sus2|dim|aug|7)?\)` (app.py line 18). -/
def matchTail (l : List Char) : Option (List Char × List Char) :=
  tryAll SUFFIXES l

/-- Attempt `CHORD_REGEX` (app.py line 18) at the head of the text: literal
`(`, a letter `[A-G]`, a greedy optional `[#b]` (with the regex engine's
backtracking when the greedy choice cannot be completed), the optional suffix,
and the literal `)`. Returns the captured group-1 content and the remainder of
the text after the closing parenthesis. -/
def matchAt : List Char → Option (List Char × List Char)
  | c0 :: c :: rest =>
    if c0 = '(' then
      if isRootLetter c then
        match rest with
        | a :: rest2 =>
          if a = '#' ∨ a = 'b' then
            match matchTail rest2 with
            | some (s, r) => some (c :: a :: s, r)
            | none =>
              match matchTail rest with
              | some (s, r) => some (c :: s, r)
              | none => none
          else
            match matchTail rest with
            | some (s, r) => some (c :: s, r)
            | none => none
        | [] => none
      else none
    else none
  | _ => none

/-- The split of app.py lines 21-26: `if len(root) > 1 and root[1] in "#b":
base = root[:2]; suffix = root[2:] else: base = root[:1]; suffix = root[1:]`. -/
def splitRoot : List Char → List Char × List Char
  | c :: a :: rest => if a = '#' ∨ a = 'b' then ([c, a], rest) else ([c], a :: rest)
  | l => (l.take 1, l.drop 1)

/-- Python's `list.index`, as a position-returning lookup. -/
def indexOfStr (x : List Char) : List (List Char) → Option Nat
  | [] => none
  | y :: ys => if x = y then some 0 else (indexOfStr x ys).map (· + 1)

/-- App.py lines 28-31: `if base in NOTES_SHARP: idx = NOTES_SHARP.index(base)
else: idx = NOTES_FLAT.index(base)`; the second `index` call raises
`ValueError` when `base` is in neither table. -/
def lookupBase (base : List Char) : Except PyError Nat :=
  match indexOfStr base notesSharpL with
  | some i => Except.ok i
  | none =>
    match indexOfStr base notesFlatL with
    | some i => Except.ok i
    | none => Except.error PyError.valueError

/-- App.py line 33: `new_idx = (idx + steps) % 12` (Python `%` is floor-mod;
for the positive modulus 12 it agrees with Lean's `Int.emod`). -/
def new_index (idx steps : Int) : Int := (idx + steps) % 12

/-- App.py lines 20-35, `transpose_root` on character lists: split the root,
look the base up (sharp table first, then flat), shift the index mod 12, render
from the sharp table, and append the untouched suffix. -/
def transposeRootL (root : List Char) (steps : Int) : Except PyError (List Char) :=
  match lookupBase (splitRoot root).1 with
  | Except.error e => Except.error e
  | Except.ok idx =>
    match notesSharpL.get? (new_index (idx : Int) steps).toNat with
    | some nb => Except.ok (nb ++ (splitRoot root).2)
    | none => Except.error PyError.indexError

/-- App.py `transpose_root` on strings. -/
def transpose_root (root : String) (steps : Int) : Except PyError String :=
  (transposeRootL root.data steps).map String.mk

/-- App.py lines 37-42: the scanner of `CHORD_REGEX.sub(replace_chord, text)`.
At each position try the pattern; on a match emit `(` + transposed capture +
`)` and continue after the match, otherwise copy one character. The fuel is an
upper bound on the remaining length (the scan consumes at least one character
per step), so the fuel-exhausted branch is unreachable from `transposeTextL`. -/
def subAux (steps : Int) : Nat → List Char → Except PyError (List Char)
  | _, [] => Except.ok []
  | 0, l => Except.ok l
  | fuel + 1, c :: rest =>
    match matchAt (c :: rest) with
    | some (cap, after) =>
      match transposeRootL cap steps with
      | Except.ok newc =>
        (subAux steps fuel after).map (fun tail => '(' :: (newc ++ ')' :: tail))
      | Except.error e => Except.error e
    | none => (subAux steps fuel rest).map (fun tail => c :: tail)

/-- App.py `transpose_text` on character lists. -/
def transposeTextL (l : List Char) (steps : Int) : Except PyError (List Char) :=
  subAux steps l.length l

/-- App.py lines 37-42, `transpose_text` on strings. -/
def transpose_text (text : String) (steps : Int) : Except PyError String :=
  (transposeTextL text.data steps).map String.mk

/-- The chord tokens of a text, in scan order: the captures of the
non-overlapping left-to-right matches of `CHORD_REGEX`. -/
def tokensAux : Nat → List Char → List (List Char)
  | _, [] => []
  | 0, _ => []
  | fuel + 1, c :: rest =>
    match matchAt (c :: rest) with
    | some (cap, after) => cap :: tokensAux fuel after
    | none => tokensAux fuel rest

/-- Token list of a character list. -/
def tokensL (l : List Char) : List (List Char) := tokensAux l.length l

/-- Token list of a string. -/
def tokens (t : String) : List String := (tokensL t.data).map String.mk

/-- Pitch class denoted by a chord string: the table index of its base, via
the split and lookup of app.py lines 21-31. -/
def pitch_class (c : String) : Except PyError Nat := lookupBase (splitRoot c.data).1

/-- App.py line 203: `capo = (capo - steps) % 12`. -/
def new_capo (old_capo steps : Int) : Int := (old_capo - steps) % 12

/-- Shape of a string the suffix part of a capture can take: empty or one of
the eight enumerated suffixes. -/
def sufOk (l : List Char) : Bool := l.isEmpty || SUFFIXES.contains l

/-- Shape of a group-1 capture of `CHORD_REGEX`: a root letter, optionally
followed by `#` or `b`, followed by an admissible suffix part. -/
def capShape : List Char → Bool
  | [] => false
  | c :: rest =>
    isRootLetter c &&
      match rest with
      | [] => true
      | a :: rest2 => if a = '#' ∨ a = 'b' then sufOk rest2 else sufOk rest

/-- Shape of an entry of the sharp table: a root letter alone or followed
by `#`. -/
def sharpShape : List Char → Bool
  | [c] => isRootLetter c
  | [c, h] => isRootLetter c && h = '#'
  | _ => false

/-- A segment of the scanner's decomposition of a text: one character lying
outside every matched span, or one matched chord token (its capture). -/
inductive Seg where
  | raw (c : Char)
  | tok (cap : List Char)

/-- The text a segmentation stands for: raw characters in place, each token
wrapped in its original parentheses. -/
def flattenSegs : List Seg → List Char
  | [] => []
  | Seg.raw c :: rest => c :: flattenSegs rest
  | Seg.tok cap :: rest => '(' :: (cap ++ ')' :: flattenSegs rest)

/-- Render a segmentation after transposing every token: every raw character
is emitted byte-for-byte unchanged in its place; only the captures of matched
tokens are replaced (their parentheses are re-emitted); a lookup failure in
any token aborts, exactly as the exception does in `re.sub`'s callback. -/
def renderSegs (steps : Int) : List Seg → Except PyError (List Char)
  | [] => Except.ok []
  | Seg.raw c :: rest => (renderSegs steps rest).map (fun t => c :: t)
  | Seg.tok cap :: rest =>
    match transposeRootL cap steps with
    | Except.ok newc => (renderSegs steps rest).map (fun t => '(' :: (newc ++ ')' :: t))
    | Except.error e => Except.error e

/-- The scanner's decomposition of a text into unmatched characters and
matched tokens, with the same fuel convention as `subAux`. -/
def scanSegs : Nat → List Char → List Seg
  | _, [] => []
  | 0, l => l.map Seg.raw
  | fuel + 1, c :: rest =>
    match matchAt (c :: rest) with
    | some (cap, after) => Seg.tok cap :: scanSegs fuel after
    | none => Seg.raw c :: scanSegs fuel rest

/-- Segmentation of a text at canonical fuel. -/
def scanSegsL (l : List Char) : List Seg := scanSegs l.length l

instance instDecEqExceptT {ε α : Type} [DecidableEq ε] [DecidableEq α] :
    DecidableEq (Except ε α) := fun x y =>
  match x, y with
  | Except.ok a, Except.ok b =>
    if h : a = b then Decidable.isTrue (by rw [h])
    else Decidable.isFalse (fun hh => h (Except.ok.inj hh))
  | Except.error a, Except.error b =>
    if h : a = b then Decidable.isTrue (by rw [h])
    else Decidable.isFalse (fun hh => h (Except.error.inj hh))
  | Except.ok _, Except.error _ => Decidable.isFalse (fun hh => Except.noConfusion hh)
  | Except.error _, Except.ok _ => Decidable.isFalse (fun hh => Except.noConfusion hh)

/-! Basic facts about the lookup tables and the matcher. -/

theorem indexOfStr_lt {x : List Char} :
    ∀ {l : List (List Char)} {i : Nat}, indexOfStr x l = some i → i < l.length := by
  intro l
  induction l with
  | nil => intro i h; simp [indexOfStr] at h
  | cons y ys ih =>
    intro i h
    by_cases hx : x = y
    · simp [indexOfStr, hx] at h
      simp only [List.length_cons]
      omega
    · simp [indexOfStr, hx] at h
      obtain ⟨j, hj, rfl⟩ := h
      have := ih hj
      simp only [List.length_cons]
      omega

theorem lookupBase_lt {base : List Char} {i : Nat}
    (h : lookupBase base = Except.ok i) : i < 12 := by
  unfold lookupBase at h
  cases h1 : indexOfStr base notesSharpL with
  | some j =>
    rw [h1] at h
    cases h
    simpa [notesSharpL, NOTES_SHARP] using indexOfStr_lt h1
  | none =>
    rw [h1] at h
    cases h2 : indexOfStr base notesFlatL with
    | some j =>
      rw [h2] at h
      cases h
      simpa [notesFlatL, NOTES_FLAT] using indexOfStr_lt h2
    | none => rw [h2] at h; cases h

theorem new_index_nonneg (idx steps : Int) : 0 ≤ new_index idx steps :=
  Int.emod_nonneg _ (by decide)

theorem new_index_lt (idx steps : Int) : new_index idx steps < 12 :=
  Int.emod_lt_of_pos _ (by decide)

/-- The sharp-table entry at a pitch-class index. -/
def sharpAt (k : Nat) : List Char := notesSharpL.getD k []

theorem notesSharpL_getD (k : Nat) (hk : k < 12) :
    notesSharpL[k]? = some (sharpAt k) := by
  interval_cases k <;> rfl

theorem new_index_toNat_lt (i steps : Int) : (new_index i steps).toNat < 12 := by
  have h1 := new_index_nonneg i steps
  have h2 := new_index_lt i steps
  omega

/-- Characterization of `transpose_root` on an input whose base resolves to a
table index: the result is the sharp-table entry at the shifted index with the
suffix appended verbatim, exactly as app.py lines 33-35 compute it. -/
theorem transposeRootL_eq {c : List Char} {i : Nat} (steps : Int)
    (h : lookupBase (splitRoot c).1 = Except.ok i) :
    transposeRootL c steps =
      Except.ok (sharpAt (new_index (i : Int) steps).toNat ++ (splitRoot c).2) := by
  unfold transposeRootL
  rw [h]
  simp [notesSharpL_getD _ (new_index_toNat_lt (i : Int) steps)]

theorem isRootLetter_mem {c : Char} (h : isRootLetter c = true) : c ∈ ROOT_LETTERS := by
  simpa [isRootLetter] using h

theorem tryAll_shape :
    ∀ {ss : List (List Char)} {l s r : List Char},
      tryAll ss l = some (s, r) → s = [] ∨ s ∈ ss := by
  intro ss
  induction ss with
  | nil =>
    intro l s r h
    unfold tryAll at h
    cases l with
    | nil => cases h
    | cons c cs =>
      by_cases hc : c = ')'
      · subst hc; simp at h; left; exact h.1
      · simp [hc] at h
  | cons hd tl ih =>
    intro l s r h
    unfold tryAll at h
    cases htry : trySuf hd l with
    | some v =>
      rw [htry] at h
      cases h
      unfold trySuf at htry
      cases hs : stripLead (hd ++ [')']) l with
      | some rr => rw [hs] at htry; cases htry; right; simp
      | none => rw [hs] at htry; cases htry
    | none =>
      rw [htry] at h
      rcases ih h with h1 | h1
      · left; exact h1
      · right; simp [h1]

theorem matchTail_shape {l s r : List Char} (h : matchTail l = some (s, r)) :
    s = [] ∨ s ∈ SUFFIXES :=
  tryAll_shape h

/-- Structure of a group-1 capture of `CHORD_REGEX`: a root letter, then
optionally an accidental, then an empty or enumerated suffix. -/
theorem matchAt_struct {l cap rest : List Char} (h : matchAt l = some (cap, rest)) :
    ∃ c s, isRootLetter c = true ∧ (s = [] ∨ s ∈ SUFFIXES) ∧
      (cap = c :: s ∨ ∃ a, (a = '#' ∨ a = 'b') ∧ cap = c :: a :: s) := by
  cases l with
  | nil => simp [matchAt] at h
  | cons c0 l1 =>
    cases l1 with
    | nil => simp [matchAt] at h
    | cons c l2 =>
      by_cases h0 : c0 = '('
      · subst h0
        by_cases hc : isRootLetter c = true
        · cases l2 with
          | nil => simp [matchAt, hc] at h
          | cons a rest2 =>
            by_cases ha : a = '#' ∨ a = 'b'
            · cases h1 : matchTail rest2 with
              | some v =>
                obtain ⟨s1, r1⟩ := v
                simp [matchAt, hc, ha, h1] at h
                exact ⟨c, s1, hc, matchTail_shape h1, Or.inr ⟨a, ha, h.1.symm⟩⟩
              | none =>
                cases h2 : matchTail (a :: rest2) with
                | some v =>
                  obtain ⟨s1, r1⟩ := v
                  simp [matchAt, hc, ha, h1, h2] at h
                  exact ⟨c, s1, hc, matchTail_shape h2, Or.inl h.1.symm⟩
                | none => simp [matchAt, hc, ha, h1, h2] at h
            · cases h2 : matchTail (a :: rest2) with
              | some v =>
                obtain ⟨s1, r1⟩ := v
                simp [matchAt, hc, ha, h2] at h
                exact ⟨c, s1, hc, matchTail_shape h2, Or.inl h.1.symm⟩
              | none => simp [matchAt, hc, ha, h2] at h
        · simp [matchAt, hc] at h
      · simp [matchAt, h0] at h

/-- Every enumerated suffix starts with a character other than `#`, `b`,
`(` and `)`. -/
theorem suffix_head_ok {s : List Char} (hs : s ∈ SUFFIXES) :
    ∃ c0 s1, s = c0 :: s1 ∧ c0 ≠ '#' ∧ c0 ≠ 'b' ∧ c0 ≠ '(' ∧ c0 ≠ ')' := by
  fin_cases hs <;> exact ⟨_, _, rfl, by decide, by decide, by decide, by decide⟩

theorem sufOk_of_shape {s : List Char} (hs : s = [] ∨ s ∈ SUFFIXES) :
    sufOk s = true := by
  rcases hs with rfl | hs
  · rfl
  · fin_cases hs <;> rfl

/-- A capture always satisfies `capShape`. -/
theorem matchAt_capShape {l cap rest : List Char} (h : matchAt l = some (cap, rest)) :
    capShape cap = true := by
  obtain ⟨c, s, hc, hs, hcap⟩ := matchAt_struct h
  rcases hcap with rfl | ⟨a, ha, rfl⟩
  · rcases hs with rfl | hsm
    · simp [capShape, hc]
    · obtain ⟨c0, s1, rfl, h1, h2, _, _⟩ := suffix_head_ok hsm
      have : sufOk (c0 :: s1) = true := sufOk_of_shape (Or.inr hsm)
      simp [capShape, hc, h1, h2, this]
  · have : sufOk s = true := sufOk_of_shape hs
    simp [capShape, hc, ha, this]

/-- The four spellings the pattern `[A-G][#b]?` can capture that appear in
neither naming table. -/
def BAD_BASES : List (List Char) := [['C', 'b'], ['F', 'b'], ['E', '#'], ['B', '#']]

/-- Claim C1 counterexample: the tokenizer pattern captures `Cb` out of
`(Cb)`, and `transpose_root` on this capture reaches the table-lookup failure
branch (the flat-table `index` call raises `ValueError`), so the failure
branch is reachable on tokenizer output, contrary to the claim. -/
theorem c1_counterexample :
    matchAt "(Cb)".data = some ("Cb".data, []) ∧
    transpose_root "Cb" 1 = Except.error PyError.valueError :=
  ⟨rfl, rfl⟩

/-- Claim C1 (amended): for every string captured by the tokenizer pattern
whose base is not one of the four spellings `Cb`, `Fb`, `E#`, `B#`, the base
split off by `transpose_root` is found in the sharp or flat table; for those
four captured roots the lookup-failure branch is reachable. -/
theorem c1_lookup_amended :
    ∀ (l cap rest : List Char), matchAt l = some (cap, rest) →
      (splitRoot cap).1 ∉ BAD_BASES →
      ∃ i, lookupBase (splitRoot cap).1 = Except.ok i := by
  intro l cap rest h hnb
  obtain ⟨c, s, hc, hs, hcap⟩ := matchAt_struct h
  have hcm := isRootLetter_mem hc
  rcases hcap with rfl | ⟨a, ha, rfl⟩
  · have hbase : (splitRoot (c :: s)).1 = [c] := by
      rcases hs with rfl | hsm
      · rfl
      · obtain ⟨c0, s1, rfl, h1, h2, _, _⟩ := suffix_head_ok hsm
        simp [splitRoot, h1, h2]
    rw [hbase]
    fin_cases hcm <;> exact ⟨_, rfl⟩
  · have hbase : (splitRoot (c :: a :: s)).1 = [c, a] := by
      simp [splitRoot, ha]
    rw [hbase] at hnb ⊢
    rcases ha with rfl | rfl <;> fin_cases hcm <;>
      first
        | exact ⟨_, rfl⟩
        | exact absurd (by decide) (fun hh => hnb hh)

/-- Claim C1 witness: a concrete capture outside the four bad spellings whose
base lookup succeeds. -/
theorem c1_witness :
    matchAt "(Gb7)".data = some ("Gb7".data, []) ∧
    (splitRoot "Gb7".data).1 ∉ BAD_BASES ∧
    (∃ i, lookupBase (splitRoot "Gb7".data).1 = Except.ok i) :=
  ⟨rfl, by decide, c1_lookup_amended "(Gb7)".data "Gb7".data [] rfl (by decide)⟩

/-- Claim C2: when the base of chord string `c` resolves to table index `i`,
`transpose_root c n` is the sharp-table name at index `(i + n) mod 12`
followed by `c`'s suffix verbatim; and the enumerated examples
`Dm7 + 2 = Em7`, `Gsus4 - 3 = Esus4`, `Bb + 0 = A#` hold. -/
theorem c2_transpose_root_spec :
    (∀ (c : String) (n : Int) (i : Nat),
      lookupBase (splitRoot c.data).1 = Except.ok i →
      transpose_root c n =
        Except.ok (String.mk (sharpAt (new_index (i : Int) n).toNat ++ (splitRoot c.data).2))) ∧
    transpose_root "Dm7" 2 = Except.ok "Em7" ∧
    transpose_root "Gsus4" (-3) = Except.ok "Esus4" ∧
    transpose_root "Bb" 0 = Except.ok "A#" := by
  refine ⟨?_, rfl, rfl, rfl⟩
  intro c n i h
  unfold transpose_root
  rw [transposeRootL_eq n h]
  rfl

/-- Claim C2 witness: `Bb` resolves to index 10 and transposing it by 5 steps
renders the sharp name at index `(10 + 5) mod 12 = 3` with empty suffix. -/
theorem c2_witness :
    lookupBase (splitRoot "Bb".data).1 = Except.ok 10 ∧
    transpose_root "Bb" 5 =
      Except.ok (String.mk (sharpAt (new_index ((10 : Nat) : Int) 5).toNat ++ (splitRoot "Bb".data).2)) :=
  ⟨rfl, c2_transpose_root_spec.1 "Bb" 5 10 rfl⟩

/-- Claim C3: for every resolvable base index and every integer number of
steps, the new index of app.py line 33 equals the floor-mod of `index + steps`
by 12 and lies in `[0, 11]`; in particular index 0 with steps `-1` gives 11. -/
theorem c3_new_index_floor_mod :
    (∀ (base : List Char) (i : Nat) (steps : Int), lookupBase base = Except.ok i →
      new_index (i : Int) steps = Int.fmod ((i : Int) + steps) 12 ∧
      0 ≤ new_index (i : Int) steps ∧ new_index (i : Int) steps < 12) ∧
    new_index 0 (-1) = 11 := by
  refine ⟨?_, by decide⟩
  intro base i steps _
  refine ⟨?_, new_index_nonneg _ _, new_index_lt _ _⟩
  rw [Int.fmod_eq_emod _ (by decide : (0 : Int) ≤ 12)]
  rfl

/-- Claim C3 witness: instantiated at the resolvable base `C` (index 0) and
steps `-1`. -/
theorem c3_witness :
    lookupBase "C".data = Except.ok 0 ∧
    (new_index ((0 : Nat) : Int) (-1) = Int.fmod (((0 : Nat) : Int) + (-1)) 12 ∧
     0 ≤ new_index ((0 : Nat) : Int) (-1) ∧ new_index ((0 : Nat) : Int) (-1) < 12) :=
  ⟨rfl, c3_new_index_floor_mod.1 "C".data 0 (-1) rfl⟩

/-- Claim C6 counterexample: `transpose_root` splits `Cb` as base `Cb` with
empty suffix — there is no fallback to the 1-character base `C` with suffix
`b` that the claim describes, and the subsequent lookup errors instead of
rendering anything. -/
theorem c6_counterexample :
    splitRoot "Cb".data = ("Cb".data, ([] : List Char)) ∧
    (splitRoot "Cb".data).1 ≠ "C".data ∧
    transpose_root "Cb" 0 = Except.error PyError.valueError :=
  ⟨rfl, by decide, rfl⟩

/-- Claim C6 (amended): the split is by shape alone — whenever the second
character is `#` or `b` the base is the first two characters, with no
table-membership fallback; otherwise the base is the first character. On
`Cb` this makes the lookup fail. -/
theorem c6_split_amended :
    (∀ (c a : Char) (rest : List Char), (a = '#' ∨ a = 'b') →
       splitRoot (c :: a :: rest) = ([c, a], rest)) ∧
    (∀ (c a : Char) (rest : List Char), ¬(a = '#' ∨ a = 'b') →
       splitRoot (c :: a :: rest) = ([c], a :: rest)) ∧
    transposeRootL "Cb".data 0 = Except.error PyError.valueError := by
  refine ⟨?_, ?_, rfl⟩
  · intro c a rest h
    simp [splitRoot, h]
  · intro c a rest h
    simp [splitRoot, h]

/-- Claim C6 witness: the 2-character split applied at `Cbm`. -/
theorem c6_witness :
    (('b' : Char) = '#' ∨ ('b' : Char) = 'b') ∧
    splitRoot ['C', 'b', 'm'] = (['C', 'b'], ['m']) :=
  ⟨Or.inr rfl, c6_split_amended.1 'C' 'b' ['m'] (Or.inr rfl)⟩

/-- Claim C7 counterexample: on a base found in neither table the code does
not raise a distinct `InvalidRootError` (no such error exists anywhere in the
source); it propagates the unhandled `ValueError` of the flat-table `index`
call (app.py line 31). -/
theorem c7_counterexample :
    transpose_root "Cb" 0 = Except.error PyError.valueError := rfl

/-- Claim C7 (amended): the only error the lookup of app.py lines 28-31 can
produce is the built-in `ValueError` of `list.index`, and `transpose_root`
propagates exactly that error when the base resolves in neither table. -/
theorem c7_value_error_amended :
    (∀ (base : List Char) (e : PyError),
       lookupBase base = Except.error e → e = PyError.valueError) ∧
    (∀ (c : String) (steps : Int),
       lookupBase (splitRoot c.data).1 = Except.error PyError.valueError →
       transpose_root c steps = Except.error PyError.valueError) := by
  constructor
  · intro base e h
    unfold lookupBase at h
    cases h1 : indexOfStr base notesSharpL with
    | some i => rw [h1] at h; cases h
    | none =>
      rw [h1] at h
      cases h2 : indexOfStr base notesFlatL with
      | some i => rw [h2] at h; cases h
      | none => rw [h2] at h; cases h; rfl
  · intro c steps h
    unfold transpose_root transposeRootL
    rw [h]
    rfl

/-- Claim C7 witness: the amended behavior at the concrete input `Fb`. -/
theorem c7_witness :
    lookupBase (splitRoot "Fb".data).1 = Except.error PyError.valueError ∧
    transpose_root "Fb" 3 = Except.error PyError.valueError :=
  ⟨rfl, c7_value_error_amended.2 "Fb" 3 rfl⟩

/-- Claim C8 counterexample: on `(Am9)` — a valid root followed by characters
outside the enumerated suffix set — the whole token passes through unchanged;
the root is not transposed, contrary to the claim. -/
theorem c8_counterexample :
    transpose_text "(Am9)" 1 = Except.ok "(Am9)" ∧
    transpose_text "(Am9)" 1 ≠ Except.ok "(A#m9)" :=
  ⟨rfl, by decide⟩

/-- Claim C9: the capo companion value of app.py line 203 is the floor-mod of
`old_capo - steps` by 12, always in `[0, 11]`; in particular
`(0, 1) ↦ 11` and `(3, -2) ↦ 5`. -/
theorem c9_new_capo :
    (∀ old_capo steps : Int,
      new_capo old_capo steps = Int.fmod (old_capo - steps) 12 ∧
      0 ≤ new_capo old_capo steps ∧ new_capo old_capo steps < 12) ∧
    new_capo 0 1 = 11 ∧ new_capo 3 (-2) = 5 := by
  refine ⟨?_, by decide, by decide⟩
  intro o s
  refine ⟨?_, Int.emod_nonneg _ (by decide), Int.emod_lt_of_pos _ (by decide)⟩
  rw [Int.fmod_eq_emod _ (by decide : (0 : Int) ≤ 12)]
  rfl

/-! Lengths consumed by the matcher, and fuel irrelevance of the scanner. -/

theorem sufOk_iff {s : List Char} : sufOk s = true ↔ (s = [] ∨ s ∈ SUFFIXES) := by
  simp [sufOk, List.isEmpty_iff]

theorem stripLead_len :
    ∀ {p l r : List Char}, stripLead p l = some r → r.length + p.length = l.length := by
  intro p
  induction p with
  | nil =>
    intro l r h
    simp [stripLead] at h
    subst h
    simp
  | cons p0 ps ih =>
    intro l r h
    cases l with
    | nil => simp [stripLead] at h
    | cons c cs =>
      by_cases hc : c = p0
      · simp [stripLead, hc] at h
        have := ih h
        simp only [List.length_cons]
        omega
      · simp [stripLead, hc] at h

theorem tryAll_len :
    ∀ {ss : List (List Char)} {l s r : List Char},
      tryAll ss l = some (s, r) → r.length + s.length + 1 = l.length := by
  intro ss
  induction ss with
  | nil =>
    intro l s r h
    cases l with
    | nil => simp [tryAll] at h
    | cons c cs =>
      by_cases hc : c = ')'
      · subst hc
        simp [tryAll] at h
        obtain ⟨rfl, rfl⟩ := h
        simp
      · simp [tryAll, hc] at h
  | cons s0 ss0 ih =>
    intro l s r h
    cases ht : trySuf s0 l with
    | some v =>
      simp [tryAll, ht] at h
      unfold trySuf at ht
      cases hs : stripLead (s0 ++ [')']) l with
      | some rr =>
        rw [hs] at ht
        cases ht
        obtain ⟨rfl, rfl⟩ := h
        have := stripLead_len hs
        simp only [List.length_append, List.length_cons, List.length_nil] at this
        omega
      | none => rw [hs] at ht; cases ht
    | none =>
      simp [tryAll, ht] at h
      exact ih h

theorem matchTail_len {l s r : List Char} (h : matchTail l = some (s, r)) :
    r.length + s.length + 1 = l.length :=
  tryAll_len h

theorem matchAt_len :
    ∀ {l cap rest : List Char}, matchAt l = some (cap, rest) →
      rest.length + cap.length + 2 = l.length := by
  intro l cap rest h
  cases l with
  | nil => simp [matchAt] at h
  | cons c0 l1 =>
    cases l1 with
    | nil =>
      have : matchAt [c0] = none := rfl
      rw [this] at h
      cases h
    | cons c l2 =>
      by_cases h0 : c0 = '('
      · subst h0
        by_cases hc : isRootLetter c = true
        · cases l2 with
          | nil => simp [matchAt, hc] at h
          | cons a rest2 =>
            by_cases ha : a = '#' ∨ a = 'b'
            · cases h1 : matchTail rest2 with
              | some v =>
                obtain ⟨s1, r1⟩ := v
                simp [matchAt, hc, ha, h1] at h
                obtain ⟨h2, h3⟩ := h
                have := matchTail_len h1
                subst h2 h3
                simp only [List.length_cons]
                omega
              | none =>
                cases h2 : matchTail (a :: rest2) with
                | some v =>
                  obtain ⟨s1, r1⟩ := v
                  simp [matchAt, hc, ha, h1, h2] at h
                  obtain ⟨h3, h4⟩ := h
                  have := matchTail_len h2
                  subst h3 h4
                  simp only [List.length_cons] at this ⊢
                  omega
                | none => simp [matchAt, hc, ha, h1, h2] at h
            · cases h2 : matchTail (a :: rest2) with
              | some v =>
                obtain ⟨s1, r1⟩ := v
                simp [matchAt, hc, ha, h2] at h
                obtain ⟨h3, h4⟩ := h
                have := matchTail_len h2
                subst h3 h4
                simp only [List.length_cons] at this ⊢
                omega
              | none => simp [matchAt, hc, ha, h2] at h
        · simp [matchAt, hc] at h
      · simp [matchAt, h0] at h

theorem matchAt_head {c : Char} {l : List Char} {v : List Char × List Char}
    (h : matchAt (c :: l) = some v) : c = '(' := by
  by_contra hc
  cases l with
  | nil =>
    have : matchAt [c] = none := rfl
    rw [this] at h
    cases h
  | cons d l2 => simp [matchAt, hc] at h

theorem matchAt_ne_paren {c : Char} {l : List Char} (hc : c ≠ '(') :
    matchAt (c :: l) = none := by
  cases l with
  | nil => rfl
  | cons d l2 => simp [matchAt, hc]

theorem subAux_fuel {steps : Int} :
    ∀ {f : Nat} {l : List Char}, l.length ≤ f → ∀ {f2 : Nat}, l.length ≤ f2 →
      subAux steps f l = subAux steps f2 l := by
  intro f
  induction f with
  | zero =>
    intro l hl f2 h2
    have hnil : l = [] := List.eq_nil_of_length_eq_zero (Nat.le_zero.mp hl)
    subst hnil
    simp [subAux]
  | succ f ih =>
    intro l hl f2 h2
    cases l with
    | nil => simp [subAux]
    | cons c rest =>
      cases f2 with
      | zero => simp at h2
      | succ f2 =>
        cases hm : matchAt (c :: rest) with
        | some v =>
          obtain ⟨cap, after⟩ := v
          have hlen := matchAt_len hm
          have hla : after.length ≤ f := by
            simp only [List.length_cons] at hl hlen
            omega
          have hla2 : after.length ≤ f2 := by
            simp only [List.length_cons] at h2 hlen
            omega
          simp only [subAux, hm]
          simp only [ih hla hla2]
        | none =>
          have hla : rest.length ≤ f := by
            simp only [List.length_cons] at hl
            omega
          have hla2 : rest.length ≤ f2 := by
            simp only [List.length_cons] at h2
            omega
          simp only [subAux, hm]
          simp only [ih hla hla2]

theorem subAux_eq_text {steps : Int} {f : Nat} {l : List Char} (h : l.length ≤ f) :
    subAux steps f l = transposeTextL l steps :=
  subAux_fuel h (Nat.le_refl _)

theorem tokensAux_fuel :
    ∀ {f : Nat} {l : List Char}, l.length ≤ f → ∀ {f2 : Nat}, l.length ≤ f2 →
      tokensAux f l = tokensAux f2 l := by
  intro f
  induction f with
  | zero =>
    intro l hl f2 h2
    have hnil : l = [] := List.eq_nil_of_length_eq_zero (Nat.le_zero.mp hl)
    subst hnil
    simp [tokensAux]
  | succ f ih =>
    intro l hl f2 h2
    cases l with
    | nil => simp [tokensAux]
    | cons c rest =>
      cases f2 with
      | zero => simp at h2
      | succ f2 =>
        cases hm : matchAt (c :: rest) with
        | some v =>
          obtain ⟨cap, after⟩ := v
          have hlen := matchAt_len hm
          have hla : after.length ≤ f := by
            simp only [List.length_cons] at hl hlen
            omega
          have hla2 : after.length ≤ f2 := by
            simp only [List.length_cons] at h2 hlen
            omega
          simp only [tokensAux, hm]
          simp only [ih hla hla2]
        | none =>
          have hla : rest.length ≤ f := by
            simp only [List.length_cons] at hl
            omega
          have hla2 : rest.length ≤ f2 := by
            simp only [List.length_cons] at h2
            omega
          simp only [tokensAux, hm]
          simp only [ih hla hla2]

theorem tokensAux_eq {f : Nat} {l : List Char} (h : l.length ≤ f) :
    tokensAux f l = tokensL l :=
  tokensAux_fuel h (Nat.le_refl _)

/-! Rebuilding a match around a well-shaped capture. -/

theorem matchTail_build {s : List Char} (hs : s = [] ∨ s ∈ SUFFIXES) :
    ∀ tail, matchTail (s ++ ')' :: tail) = some (s, tail) := by
  rcases hs with rfl | hs
  · intro tail; rfl
  · fin_cases hs <;> intro tail <;> rfl

theorem matchAt_build {cap : List Char} (hcap : capShape cap = true) :
    ∀ tail, matchAt ('(' :: cap ++ ')' :: tail) = some (cap, tail) := by
  intro tail
  cases cap with
  | nil => exact absurd hcap (by decide)
  | cons c rest =>
    cases rest with
    | nil =>
      have hc : isRootLetter c = true := by simpa [capShape] using hcap
      have hmt : matchTail (')' :: tail) = some ([], tail) :=
        matchTail_build (Or.inl rfl) tail
      simp [matchAt, hc, hmt]
    | cons a rest2 =>
      by_cases ha : a = '#' ∨ a = 'b'
      · have hx : isRootLetter c = true ∧ sufOk rest2 = true := by
          simpa [capShape, ha] using hcap
        have hmt : matchTail (rest2 ++ ')' :: tail) = some (rest2, tail) :=
          matchTail_build (sufOk_iff.mp hx.2) tail
        simp [matchAt, ha, hx.1, hmt]
      · have hx : isRootLetter c = true ∧ sufOk (a :: rest2) = true := by
          simpa [capShape, ha] using hcap
        have hmt : matchTail (a :: (rest2 ++ ')' :: tail)) = some (a :: rest2, tail) :=
          matchTail_build (sufOk_iff.mp hx.2) tail
        simp [matchAt, ha, hx.1, hmt]


/-! Facts about the sharp-table entries and the split of rebuilt chords. -/

theorem sharpAt_facts (k : Nat) (hk : k < 12) :
    lookupBase (sharpAt k) = Except.ok k ∧ sharpShape (sharpAt k) = true := by
  interval_cases k <;> exact ⟨rfl, rfl⟩

theorem capShape_split {cap : List Char} (h : capShape cap = true) :
    sufOk (splitRoot cap).2 = true := by
  cases cap with
  | nil => cases h
  | cons c rest =>
    cases rest with
    | nil => rfl
    | cons a rest2 =>
      by_cases ha : a = '#' ∨ a = 'b'
      · have hx : isRootLetter c = true ∧ sufOk rest2 = true := by
          simpa [capShape, ha] using h
        simpa [splitRoot, ha] using hx.2
      · have hx : isRootLetter c = true ∧ sufOk (a :: rest2) = true := by
          simpa [capShape, ha] using h
        simpa [splitRoot, ha] using hx.2

theorem splitRoot_sharp {nb suf : List Char} (hnb : sharpShape nb = true)
    (hsuf : sufOk suf = true) :
    splitRoot (nb ++ suf) = (nb, suf) ∧ capShape (nb ++ suf) = true := by
  have hsuf2 : suf = [] ∨ suf ∈ SUFFIXES := sufOk_iff.mp hsuf
  cases nb with
  | nil => cases hnb
  | cons c nb1 =>
    cases nb1 with
    | nil =>
      have hc : isRootLetter c = true := by simpa [sharpShape] using hnb
      rcases hsuf2 with rfl | hmem
      · exact ⟨rfl, by simp [capShape, hc]⟩
      · obtain ⟨s0, s1, rfl, hh1, hh2, _, _⟩ := suffix_head_ok hmem
        have hns : ¬(s0 = '#' ∨ s0 = 'b') := by
          rintro (rfl | rfl)
          · exact hh1 rfl
          · exact hh2 rfl
        refine ⟨by simp [splitRoot, hns], ?_⟩
        simpa [capShape, hc, hns] using hsuf
    | cons h2 nb2 =>
      cases nb2 with
      | nil =>
        have hx : isRootLetter c = true ∧ h2 = '#' := by
          simpa [sharpShape] using hnb
        obtain ⟨hc, rfl⟩ := hx
        refine ⟨by simp [splitRoot], ?_⟩
        simpa [capShape, hc] using hsuf
      | cons _ _ => exact absurd hnb (by simp [sharpShape])

theorem transposeRootL_ok_inv {cap out : List Char} {steps : Int}
    (h : transposeRootL cap steps = Except.ok out) :
    ∃ i, lookupBase (splitRoot cap).1 = Except.ok i ∧
      out = sharpAt (new_index (i : Int) steps).toNat ++ (splitRoot cap).2 := by
  cases hl : lookupBase (splitRoot cap).1 with
  | error e =>
    unfold transposeRootL at h
    rw [hl] at h
    cases h
  | ok i =>
    refine ⟨i, rfl, ?_⟩
    rw [transposeRootL_eq steps hl] at h
    exact (Except.ok.inj h).symm

/-- Everything the composition argument needs about the chord a successful
`transpose_root` emits: it is again a well-shaped capture, it splits into the
rendered sharp name and the untouched suffix, and its base resolves to the
shifted index. -/
theorem trans_out_facts {cap out : List Char} {steps : Int}
    (hcap : capShape cap = true) (h : transposeRootL cap steps = Except.ok out) :
    ∃ i, lookupBase (splitRoot cap).1 = Except.ok i ∧
      capShape out = true ∧
      splitRoot out = (sharpAt (new_index (i : Int) steps).toNat, (splitRoot cap).2) ∧
      lookupBase (splitRoot out).1 = Except.ok (new_index (i : Int) steps).toNat := by
  obtain ⟨i, hl, rfl⟩ := transposeRootL_ok_inv h
  have hk := new_index_toNat_lt (i : Int) steps
  obtain ⟨hlk, hshape⟩ := sharpAt_facts _ hk
  have hsuf := capShape_split hcap
  obtain ⟨hsplit, hcs⟩ := splitRoot_sharp hshape hsuf
  exact ⟨i, hl, hcs, hsplit, by rw [hsplit]; exact hlk⟩

/-! The scanner copies its input until the first unmatched opening
parenthesis; the `agree` relation captures exactly that, and failure of the
pattern at such a parenthesis depends only on the shared prefix. -/

/-- Two texts that are equal, or share a `(`-free prefix followed in both by
an opening parenthesis. -/
def agree (l out : List Char) : Prop :=
  l = out ∨ ∃ p x y, ('(' ∉ p) ∧ l = p ++ '(' :: x ∧ out = p ++ '(' :: y

theorem agree_refl (l : List Char) : agree l l := Or.inl rfl

theorem agree_cons {c : Char} {l out : List Char} (h : agree l out) :
    agree (c :: l) (c :: out) := by
  by_cases hc : c = '('
  · subst hc
    exact Or.inr ⟨[], l, out, by simp, rfl, rfl⟩
  · rcases h with rfl | ⟨p, x, y, hp, rfl, rfl⟩
    · exact agree_refl _
    · refine Or.inr ⟨c :: p, x, y, ?_, rfl, rfl⟩
      intro hm
      rcases List.mem_cons.mp hm with he | hm2
      · exact hc he.symm
      · exact hp hm2

theorem subAux_agree {steps : Int} :
    ∀ {f : Nat} {l out : List Char}, subAux steps f l = Except.ok out → agree l out := by
  intro f
  induction f with
  | zero =>
    intro l out h
    cases l with
    | nil => cases h; exact agree_refl _
    | cons c rest => cases h; exact agree_refl _
  | succ f ih =>
    intro l out h
    cases l with
    | nil => cases h; exact agree_refl _
    | cons c rest =>
      cases hm : matchAt (c :: rest) with
      | some v =>
        obtain ⟨cap, after⟩ := v
        have hc : c = '(' := matchAt_head hm
        subst hc
        simp only [subAux, hm] at h
        cases ht : transposeRootL cap steps with
        | ok newc =>
          rw [ht] at h
          cases hs : subAux steps f after with
          | ok tail =>
            rw [hs] at h
            cases h
            exact Or.inr ⟨[], rest, _, by simp, rfl, rfl⟩
          | error e => rw [hs] at h; cases h
        | error e => rw [ht] at h; cases h
      | none =>
        simp only [subAux, hm] at h
        cases hs : subAux steps f rest with
        | ok tail =>
          rw [hs] at h
          cases h
          exact agree_cons (ih hs)
        | error e => rw [hs] at h; cases h

theorem stripLead_paren_none :
    ∀ {cs : List Char}, '(' ∉ cs → ∀ {q x y : List Char}, '(' ∉ q →
      stripLead cs (q ++ '(' :: x) = none → stripLead cs (q ++ '(' :: y) = none := by
  intro cs
  induction cs with
  | nil => intro _ q x y _ h; simp [stripLead] at h
  | cons c1 cs1 ih =>
    intro hcs q x y hq h
    cases q with
    | nil =>
      have hc1 : ('(' : Char) ≠ c1 := by
        intro he
        exact hcs (by rw [he]; exact List.mem_cons_self _ _)
      simp [stripLead, hc1]
    | cons d q1 =>
      by_cases hd : d = c1
      · subst hd
        simp only [List.cons_append, stripLead, if_pos rfl] at h ⊢
        exact ih (fun hm => hcs (List.mem_cons_of_mem _ hm))
          (fun hm => hq (List.mem_cons_of_mem _ hm)) h
      · simp [stripLead, hd]

theorem trySuf_paren_none {s : List Char} (hs : '(' ∉ s) {q x y : List Char}
    (hq : '(' ∉ q) (h : trySuf s (q ++ '(' :: x) = none) :
    trySuf s (q ++ '(' :: y) = none := by
  unfold trySuf at h ⊢
  cases h1 : stripLead (s ++ [')']) (q ++ '(' :: x) with
  | some r => rw [h1] at h; cases h
  | none =>
    have h2 : stripLead (s ++ [')']) (q ++ '(' :: y) = none := by
      refine stripLead_paren_none ?_ hq h1
      simp [hs]
    rw [h2]

theorem tryAll_paren_none :
    ∀ {ss : List (List Char)}, (∀ s ∈ ss, '(' ∉ s) → ∀ {q x y : List Char}, '(' ∉ q →
      tryAll ss (q ++ '(' :: x) = none → tryAll ss (q ++ '(' :: y) = none := by
  intro ss
  induction ss with
  | nil =>
    intro _ q x y hq h
    cases q with
    | nil => simp [tryAll]
    | cons d q1 =>
      by_cases hd : d = ')'
      · subst hd; simp [tryAll] at h
      · simp [tryAll, hd]
  | cons s0 ss0 ih =>
    intro hss q x y hq h
    unfold tryAll at h ⊢
    cases h1 : trySuf s0 (q ++ '(' :: x) with
    | some v => rw [h1] at h; cases h
    | none =>
      rw [h1] at h
      have h2 := trySuf_paren_none (hss s0 (by simp)) hq (y := y) h1
      rw [h2]
      exact ih (fun s hm => hss s (by simp [hm])) hq h

theorem matchTail_paren_none {q x y : List Char} (hq : '(' ∉ q)
    (h : matchTail (q ++ '(' :: x) = none) : matchTail (q ++ '(' :: y) = none :=
  tryAll_paren_none (by decide) hq h

theorem matchTail_paren (z : List Char) : matchTail ('(' :: z) = none := rfl

/-- Failure of the pattern at an opening parenthesis is preserved along
`agree`: the examined region never extends past the first unmatched `(`. -/
theorem matchAt_agree_none {xs ys : List Char} (hag : agree xs ys)
    (h : matchAt ('(' :: xs) = none) : matchAt ('(' :: ys) = none := by
  rcases hag with rfl | ⟨p, x, y, hp, rfl, rfl⟩
  · exact h
  cases p with
  | nil => simp [matchAt, show isRootLetter '(' = false from rfl]
  | cons c p1 =>
    by_cases hc : isRootLetter c = true
    · cases p1 with
      | nil => simp [matchAt, hc, matchTail_paren]
      | cons a p2 =>
        have ha_ne : a ≠ '(' := by
          intro he
          exact hp (by rw [← he]; exact List.mem_cons_of_mem _ (List.mem_cons_self _ _))
        have hp2 : '(' ∉ p2 :=
          fun hm => hp (List.mem_cons_of_mem _ (List.mem_cons_of_mem _ hm))
        have hq2 : '(' ∉ (a :: p2) := by
          intro hm
          rcases List.mem_cons.mp hm with he | hm2
          · exact ha_ne he.symm
          · exact hp2 hm2
        by_cases ha : a = '#' ∨ a = 'b'
        · have hx1 : matchTail (p2 ++ '(' :: x) = none := by
            cases hmt : matchTail (p2 ++ '(' :: x) with
            | none => rfl
            | some v =>
              obtain ⟨s1, r1⟩ := v
              simp [matchAt, hc, ha, hmt] at h
          have hx2 : matchTail (a :: (p2 ++ '(' :: x)) = none := by
            cases hmt : matchTail (a :: (p2 ++ '(' :: x)) with
            | none => rfl
            | some v =>
              obtain ⟨s1, r1⟩ := v
              simp [matchAt, hc, ha, hx1, hmt] at h
          have hy1 := matchTail_paren_none hp2 (y := y) hx1
          have hy2 : matchTail (a :: (p2 ++ '(' :: y)) = none :=
            matchTail_paren_none hq2 (y := y) hx2
          simp [matchAt, hc, ha, hy1, hy2]
        · have hx2 : matchTail (a :: (p2 ++ '(' :: x)) = none := by
            cases hmt : matchTail (a :: (p2 ++ '(' :: x)) with
            | none => rfl
            | some v =>
              obtain ⟨s1, r1⟩ := v
              simp [matchAt, hc, ha, hmt] at h
          have hy2 : matchTail (a :: (p2 ++ '(' :: y)) = none :=
            matchTail_paren_none hq2 (y := y) hx2
          simp [matchAt, hc, ha, hy2]
    · simp [matchAt, hc]


/-! One-step unfolding of the scanner and the token collector at canonical
fuel, and the main composition and token-correspondence inductions. -/

theorem new_index_comp (i : Nat) (a b : Int) :
    new_index ((new_index (i : Int) a).toNat : Int) b = new_index (i : Int) (a + b) := by
  have h0 := new_index_nonneg (i : Int) a
  unfold new_index at *
  omega

theorem transposeTextL_nil (st : Int) : transposeTextL [] st = Except.ok [] := rfl

theorem transposeTextL_cons_match {st : Int} {c : Char} {rest cap after : List Char}
    (hm : matchAt (c :: rest) = some (cap, after)) :
    transposeTextL (c :: rest) st =
      match transposeRootL cap st with
      | Except.ok newc =>
        (transposeTextL after st).map (fun tail => '(' :: (newc ++ ')' :: tail))
      | Except.error e => Except.error e := by
  have hle : after.length ≤ rest.length := by
    have := matchAt_len hm
    simp only [List.length_cons] at this
    omega
  unfold transposeTextL
  simp only [List.length_cons, subAux, hm]
  rw [subAux_fuel hle (Nat.le_refl _)]

theorem transposeTextL_cons_none {st : Int} {c : Char} {rest : List Char}
    (hm : matchAt (c :: rest) = none) :
    transposeTextL (c :: rest) st = (transposeTextL rest st).map (fun tail => c :: tail) := by
  unfold transposeTextL
  simp only [List.length_cons, subAux, hm]

theorem tokensL_nil : tokensL [] = [] := rfl

theorem tokensL_cons_match {c : Char} {rest cap after : List Char}
    (hm : matchAt (c :: rest) = some (cap, after)) :
    tokensL (c :: rest) = cap :: tokensL after := by
  have hle : after.length ≤ rest.length := by
    have := matchAt_len hm
    simp only [List.length_cons] at this
    omega
  unfold tokensL
  simp only [List.length_cons, tokensAux, hm]
  rw [tokensAux_fuel hle (Nat.le_refl _)]

theorem tokensL_cons_none {c : Char} {rest : List Char}
    (hm : matchAt (c :: rest) = none) :
    tokensL (c :: rest) = tokensL rest := by
  unfold tokensL
  simp only [List.length_cons, tokensAux, hm]

/-- Core composition of the scanner: a text produced by a successful
transposition by `a` steps, transposed again by `b` steps, gives the same
result as transposing the original text by `a + b` steps. -/
theorem subAux_comp {a b : Int} :
    ∀ {f : Nat} {l u : List Char}, l.length ≤ f → subAux a f l = Except.ok u →
      transposeTextL u b = transposeTextL l (a + b) := by
  intro f
  induction f with
  | zero =>
    intro l u hl h
    have hnil : l = [] := List.eq_nil_of_length_eq_zero (Nat.le_zero.mp hl)
    subst hnil
    cases h
    rfl
  | succ f ih =>
    intro l u hl h
    cases l with
    | nil => cases h; rfl
    | cons c rest =>
      cases hm : matchAt (c :: rest) with
      | some v =>
        obtain ⟨cap, after⟩ := v
        have hc : c = '(' := matchAt_head hm
        subst hc
        have hcap := matchAt_capShape hm
        have hafter : after.length ≤ f := by
          have := matchAt_len hm
          simp only [List.length_cons] at this hl
          omega
        simp only [subAux, hm] at h
        cases ht : transposeRootL cap a with
        | error e => rw [ht] at h; cases h
        | ok newc =>
          rw [ht] at h
          cases hs : subAux a f after with
          | error e => rw [hs] at h; cases h
          | ok tail1 =>
            rw [hs] at h
            cases h
            obtain ⟨i, hli, hcs_out, hsplit_out, hlk_out⟩ := trans_out_facts hcap ht
            have hmb : matchAt ('(' :: (newc ++ ')' :: tail1)) = some (newc, tail1) :=
              matchAt_build hcs_out tail1
            have htb : transposeRootL newc b =
                Except.ok (sharpAt (new_index (i : Int) (a + b)).toNat ++ (splitRoot cap).2) := by
              have h1 := transposeRootL_eq (c := newc) b hlk_out
              rw [hsplit_out] at h1
              rw [new_index_comp] at h1
              exact h1
            have hta : transposeRootL cap (a + b) =
                Except.ok (sharpAt (new_index (i : Int) (a + b)).toNat ++ (splitRoot cap).2) :=
              transposeRootL_eq (a + b) hli
            rw [transposeTextL_cons_match hmb, transposeTextL_cons_match hm, htb, hta]
            rw [ih hafter hs]
      | none =>
        simp only [subAux, hm] at h
        cases hs : subAux a f rest with
        | error e => rw [hs] at h; cases h
        | ok tail1 =>
          rw [hs] at h
          cases h
          have hagree := subAux_agree hs
          have hm2 : matchAt (c :: tail1) = none := by
            by_cases hc : c = '('
            · subst hc
              exact matchAt_agree_none hagree hm
            · exact matchAt_ne_paren hc
          have hrest : rest.length ≤ f := by
            simp only [List.length_cons] at hl
            omega
          rw [transposeTextL_cons_none hm2, transposeTextL_cons_none hm]
          rw [ih hrest hs]

/-- The value of `transposeTextL` on a text with no lookup failures does not
depend on the step count for succeeding: success propagates to any steps. -/
theorem subAux_ok_any {a : Int} :
    ∀ {f : Nat} {l u : List Char}, subAux a f l = Except.ok u → ∀ b : Int,
      ∃ v, subAux b f l = Except.ok v := by
  intro f
  induction f with
  | zero =>
    intro l u h b
    cases l with
    | nil => exact ⟨[], rfl⟩
    | cons c rest => exact ⟨c :: rest, rfl⟩
  | succ f ih =>
    intro l u h b
    cases l with
    | nil => exact ⟨[], rfl⟩
    | cons c rest =>
      cases hm : matchAt (c :: rest) with
      | some v =>
        obtain ⟨cap, after⟩ := v
        simp only [subAux, hm] at h ⊢
        cases ht : transposeRootL cap a with
        | error e => rw [ht] at h; cases h
        | ok newc =>
          rw [ht] at h
          cases hs : subAux a f after with
          | error e => rw [hs] at h; cases h
          | ok tail1 =>
            obtain ⟨i, hli, _⟩ := transposeRootL_ok_inv ht
            have htb := transposeRootL_eq (c := cap) b hli
            obtain ⟨v2, hv2⟩ := ih hs b
            rw [htb, hv2]
            exact ⟨_, rfl⟩
      | none =>
        simp only [subAux, hm] at h ⊢
        cases hs : subAux a f rest with
        | error e => rw [hs] at h; cases h
        | ok tail1 =>
          obtain ⟨v2, hv2⟩ := ih hs b
          rw [hv2]
          exact ⟨_, rfl⟩

/-- Token correspondence: a successful transposition maps the token list of
the input pointwise through `transpose_root`. -/
theorem subAux_tokens {steps : Int} :
    ∀ {f : Nat} {l u : List Char}, l.length ≤ f → subAux steps f l = Except.ok u →
      List.Forall₂ (fun cap cap2 => transposeRootL cap steps = Except.ok cap2)
        (tokensL l) (tokensL u) := by
  intro f
  induction f with
  | zero =>
    intro l u hl h
    have hnil : l = [] := List.eq_nil_of_length_eq_zero (Nat.le_zero.mp hl)
    subst hnil
    cases h
    exact List.Forall₂.nil
  | succ f ih =>
    intro l u hl h
    cases l with
    | nil => cases h; exact List.Forall₂.nil
    | cons c rest =>
      cases hm : matchAt (c :: rest) with
      | some v =>
        obtain ⟨cap, after⟩ := v
        have hc : c = '(' := matchAt_head hm
        subst hc
        have hcap := matchAt_capShape hm
        have hafter : after.length ≤ f := by
          have := matchAt_len hm
          simp only [List.length_cons] at this hl
          omega
        simp only [subAux, hm] at h
        cases ht : transposeRootL cap steps with
        | error e => rw [ht] at h; cases h
        | ok newc =>
          rw [ht] at h
          cases hs : subAux steps f after with
          | error e => rw [hs] at h; cases h
          | ok tail1 =>
            rw [hs] at h
            cases h
            obtain ⟨i, hli, hcs_out, hsplit_out, hlk_out⟩ := trans_out_facts hcap ht
            have hmb : matchAt ('(' :: (newc ++ ')' :: tail1)) = some (newc, tail1) :=
              matchAt_build hcs_out tail1
            rw [tokensL_cons_match hmb, tokensL_cons_match hm]
            exact List.Forall₂.cons ht (ih hafter hs)
      | none =>
        simp only [subAux, hm] at h
        cases hs : subAux steps f rest with
        | error e => rw [hs] at h; cases h
        | ok tail1 =>
          rw [hs] at h
          cases h
          have hagree := subAux_agree hs
          have hm2 : matchAt (c :: tail1) = none := by
            by_cases hc : c = '('
            · subst hc
              exact matchAt_agree_none hagree hm
            · exact matchAt_ne_paren hc
          have hrest : rest.length ≤ f := by
            simp only [List.length_cons] at hl
            omega
          rw [tokensL_cons_none hm2, tokensL_cons_none hm]
          exact ih hrest hs


/-! Claims about `transpose_text`: frame behavior, round trip, composition. -/

theorem transpose_text_ok_data {t u : String} {steps : Int}
    (h : transpose_text t steps = Except.ok u) :
    transposeTextL t.data steps = Except.ok u.data := by
  unfold transpose_text at h
  cases he : transposeTextL t.data steps with
  | error e => rw [he] at h; cases h
  | ok v =>
    rw [he] at h
    cases h
    rfl

theorem subAux_no_tokens {steps : Int} :
    ∀ {f : Nat} {l : List Char}, l.length ≤ f → tokensL l = [] →
      subAux steps f l = Except.ok l := by
  intro f
  induction f with
  | zero =>
    intro l hl _
    have hnil : l = [] := List.eq_nil_of_length_eq_zero (Nat.le_zero.mp hl)
    subst hnil
    rfl
  | succ f ih =>
    intro l hl htok
    cases l with
    | nil => rfl
    | cons c rest =>
      cases hm : matchAt (c :: rest) with
      | some v =>
        obtain ⟨cap, after⟩ := v
        rw [tokensL_cons_match hm] at htok
        cases htok
      | none =>
        rw [tokensL_cons_none hm] at htok
        have hrest : rest.length ≤ f := by
          simp only [List.length_cons] at hl
          omega
        simp only [subAux, hm, ih hrest htok]
        rfl

/-- A parenthesis-free prefix is copied verbatim by the scanner around the
transposition of the remainder. -/
theorem transposeTextL_paren_free {steps : Int} :
    ∀ (p t : List Char), '(' ∉ p →
      transposeTextL (p ++ t) steps = (transposeTextL t steps).map (fun r => p ++ r) := by
  intro p
  induction p with
  | nil =>
    intro t _
    simp only [List.nil_append]
    cases transposeTextL t steps <;> rfl
  | cons c p1 ih =>
    intro t hp
    have hc : c ≠ '(' := by
      intro he
      exact hp (by rw [he]; exact List.mem_cons_self _ _)
    have hp1 : '(' ∉ p1 := fun hm => hp (List.mem_cons_of_mem _ hm)
    have hm := matchAt_ne_paren (l := p1 ++ t) hc
    rw [List.cons_append, transposeTextL_cons_none hm, ih t hp1]
    cases transposeTextL t steps <;> rfl

/-- Pitch-class round trip of a single well-shaped chord: transposing by `n`
then by `-n` lands on a chord whose base resolves to the original index. -/
theorem pitch_round {cap cap1 : List Char} {n : Int}
    (hcap : capShape cap = true) (h1 : transposeRootL cap n = Except.ok cap1) :
    ∃ cap2, transposeRootL cap1 (-n) = Except.ok cap2 ∧
      lookupBase (splitRoot cap2).1 = lookupBase (splitRoot cap).1 := by
  obtain ⟨i, hli, hcs1, hsplit1, hlk1⟩ := trans_out_facts hcap h1
  have hi12 : i < 12 := lookupBase_lt hli
  have h2 := transposeRootL_eq (c := cap1) (-n) hlk1
  refine ⟨_, h2, ?_⟩
  obtain ⟨j, hlj, _hcs2, _hsplit2, hlk2⟩ := trans_out_facts hcs1 h2
  rw [hlk1] at hlj
  have hj : (new_index (i : Int) n).toNat = j := Except.ok.inj hlj
  subst hj
  rw [hlk2, hli]
  congr 1
  have h0 := new_index_nonneg (i : Int) n
  unfold new_index
  omega

theorem tokensAux_capShape :
    ∀ {f : Nat} {l cap : List Char}, cap ∈ tokensAux f l → capShape cap = true := by
  intro f
  induction f with
  | zero =>
    intro l cap h
    cases l <;> simp [tokensAux] at h
  | succ f ih =>
    intro l cap h
    cases l with
    | nil => simp [tokensAux] at h
    | cons c rest =>
      cases hm : matchAt (c :: rest) with
      | some v =>
        obtain ⟨cap1, after⟩ := v
        rw [show tokensAux (f + 1) (c :: rest) = cap1 :: tokensAux f after from by
          simp only [tokensAux, hm]] at h
        rcases List.mem_cons.mp h with rfl | h2
        · exact matchAt_capShape hm
        · exact ih h2
      | none =>
        rw [show tokensAux (f + 1) (c :: rest) = tokensAux f rest from by
          simp only [tokensAux, hm]] at h
        exact ih h

theorem forall2_trans_pitch {n : Int} :
    ∀ {A B C : List (List Char)},
      (∀ cap ∈ A, capShape cap = true) →
      List.Forall₂ (fun cap cap2 => transposeRootL cap n = Except.ok cap2) A B →
      List.Forall₂ (fun cap cap2 => transposeRootL cap (-n) = Except.ok cap2) B C →
      List.Forall₂ (fun cap cap2 => lookupBase (splitRoot cap2).1 = lookupBase (splitRoot cap).1)
        A C := by
  intro A B C hA h1
  induction h1 generalizing C with
  | nil =>
    intro h2
    cases h2
    exact List.Forall₂.nil
  | @cons a b A1 B1 hr htail ih =>
    intro h2
    cases h2 with
    | @cons _ c _ C1 hr2 htail2 =>
      refine List.Forall₂.cons ?_ (ih (fun cap hm => hA cap (List.mem_cons_of_mem _ hm)) htail2)
      obtain ⟨c2, hc2, heq⟩ := pitch_round (hA a (List.mem_cons_self _ _)) hr
      rw [hc2] at hr2
      cases hr2
      exact heq

/-- Claim C4: a transposition by `n` followed by one by `-n` reproduces the
same pitch classes token by token (spelling may normalize to sharp), both at
the text level and for a single captured chord. -/
theorem c4_round_trip :
    (∀ (t : String) (n : Int) (u : String), transpose_text t n = Except.ok u →
      ∃ u2, transpose_text u (-n) = Except.ok u2 ∧
        List.Forall₂ (fun c c2 => pitch_class c2 = pitch_class c) (tokens t) (tokens u2)) ∧
    (∀ (c : List Char) (n : Int) (c1 : List Char), capShape c = true →
      transposeRootL c n = Except.ok c1 →
      ∃ c2, transposeRootL c1 (-n) = Except.ok c2 ∧
        lookupBase (splitRoot c2).1 = lookupBase (splitRoot c).1) := by
  constructor
  · intro t n u h
    have hd := transpose_text_ok_data h
    have hcomp := subAux_comp (a := n) (b := -n) (Nat.le_refl _) hd
    obtain ⟨v, hv⟩ := subAux_ok_any hd (n + -n)
    have hd2 : transposeTextL u.data (-n) = Except.ok v := by
      rw [hcomp]
      exact hv
    refine ⟨String.mk v, ?_, ?_⟩
    · unfold transpose_text
      rw [hd2]
      rfl
    · have F1 := subAux_tokens (Nat.le_refl _) hd
      have F2 := subAux_tokens (Nat.le_refl _) hd2
      have F3 := forall2_trans_pitch (fun cap hm => tokensAux_capShape hm) F1 F2
      unfold tokens pitch_class
      rw [List.forall₂_map_left_iff, List.forall₂_map_right_iff]
      exact F3
  · intro c n c1 hcap h1
    exact pitch_round hcap h1

/-- Claim C4 witness: the text round trip at `"a (Bb) b"` with one step, and
the chord round trip at `Gm7` with two steps. -/
theorem c4_witness :
    (transpose_text "a (Bb) b" 1 = Except.ok "a (B) b" ∧
     (∃ u2, transpose_text "a (B) b" (-1) = Except.ok u2 ∧
       List.Forall₂ (fun c c2 => pitch_class c2 = pitch_class c)
         (tokens "a (Bb) b") (tokens u2))) ∧
    (capShape "Gm7".data = true ∧ transposeRootL "Gm7".data 2 = Except.ok "Am7".data ∧
     (∃ c2, transposeRootL "Am7".data (-2) = Except.ok c2 ∧
       lookupBase (splitRoot c2).1 = lookupBase (splitRoot "Gm7".data).1)) :=
  ⟨⟨rfl, c4_round_trip.1 "a (Bb) b" 1 "a (B) b" rfl⟩,
   ⟨rfl, rfl, c4_round_trip.2 "Gm7".data 2 "Am7".data rfl rfl⟩⟩

/-- Claim C10: on a text whose tokens all resolve, transposing the output by
`b` steps equals transposing the original by `a + b` steps, string-equal; in
particular transposing any `transpose_text` output by 0 steps is the string
identity. -/
theorem c10_compose :
    (∀ (t u : String) (a b : Int), transpose_text t a = Except.ok u →
       transpose_text u b = transpose_text t (a + b)) ∧
    (∀ (t u : String) (a : Int), transpose_text t a = Except.ok u →
       transpose_text u 0 = Except.ok u) := by
  have key : ∀ (t u : String) (a b : Int), transpose_text t a = Except.ok u →
      transpose_text u b = transpose_text t (a + b) := by
    intro t u a b h
    have hd := transpose_text_ok_data h
    have hcomp := subAux_comp (a := a) (b := b) (Nat.le_refl _) hd
    unfold transpose_text
    rw [hcomp]
  refine ⟨key, ?_⟩
  intro t u a h
  have h2 := key t u a 0 h
  rw [h2, show a + 0 = a from by ring]
  exact h

/-- Claim C10 witness: two single-step transpositions of `"(C)"` compose to
the two-step one, and the intermediate output is fixed by a zero-step pass. -/
theorem c10_witness :
    transpose_text "(C)" 1 = Except.ok "(C#)" ∧
    transpose_text "(C#)" 1 = transpose_text "(C)" (1 + 1) ∧
    transpose_text "(C#)" 0 = Except.ok "(C#)" :=
  ⟨rfl, c10_compose.1 "(C)" "(C#)" 1 1 rfl, c10_compose.2 "(C)" "(C#)" 1 rfl⟩


/-! The scanner's segmentation of a text: matched spans and everything
outside them, used to state the frame property of claim C5 universally. -/

theorem stripLead_recon :
    ∀ {p l r : List Char}, stripLead p l = some r → l = p ++ r := by
  intro p
  induction p with
  | nil =>
    intro l r h
    simp [stripLead] at h
    subst h
    rfl
  | cons p0 ps ih =>
    intro l r h
    cases l with
    | nil => simp [stripLead] at h
    | cons c cs =>
      by_cases hc : c = p0
      · subst hc
        simp [stripLead] at h
        rw [List.cons_append, ih h]
      · simp [stripLead, hc] at h

theorem tryAll_recon :
    ∀ {ss : List (List Char)} {l s r : List Char},
      tryAll ss l = some (s, r) → l = s ++ ')' :: r := by
  intro ss
  induction ss with
  | nil =>
    intro l s r h
    cases l with
    | nil => simp [tryAll] at h
    | cons c cs =>
      by_cases hc : c = ')'
      · subst hc
        simp [tryAll] at h
        obtain ⟨rfl, rfl⟩ := h
        rfl
      · simp [tryAll, hc] at h
  | cons s0 ss0 ih =>
    intro l s r h
    cases ht : trySuf s0 l with
    | some v =>
      simp [tryAll, ht] at h
      unfold trySuf at ht
      cases hs : stripLead (s0 ++ [')']) l with
      | some rr =>
        rw [hs] at ht
        cases ht
        obtain ⟨rfl, rfl⟩ := h
        have := stripLead_recon hs
        simpa [List.append_assoc] using this
      | none => rw [hs] at ht; cases ht
    | none =>
      simp [tryAll, ht] at h
      exact ih h

/-- A match reconstructs its input: the consumed span is exactly the opening
parenthesis, the capture, and the closing parenthesis. -/
theorem matchAt_recon :
    ∀ {l cap rest : List Char}, matchAt l = some (cap, rest) →
      l = '(' :: cap ++ ')' :: rest := by
  intro l cap rest h
  cases l with
  | nil => simp [matchAt] at h
  | cons c0 l1 =>
    cases l1 with
    | nil =>
      have hn : matchAt [c0] = none := rfl
      rw [hn] at h
      cases h
    | cons c l2 =>
      by_cases h0 : c0 = '('
      · subst h0
        by_cases hc : isRootLetter c = true
        · cases l2 with
          | nil => simp [matchAt, hc] at h
          | cons a rest2 =>
            by_cases ha : a = '#' ∨ a = 'b'
            · cases h1 : matchTail rest2 with
              | some v =>
                obtain ⟨s1, r1⟩ := v
                simp [matchAt, hc, ha, h1] at h
                obtain ⟨h2, h3⟩ := h
                subst h2 h3
                have hr := tryAll_recon h1
                simp [hr]
              | none =>
                cases h2 : matchTail (a :: rest2) with
                | some v =>
                  obtain ⟨s1, r1⟩ := v
                  simp [matchAt, hc, ha, h1, h2] at h
                  obtain ⟨h3, h4⟩ := h
                  subst h3 h4
                  have hr := tryAll_recon h2
                  simp [hr]
                | none => simp [matchAt, hc, ha, h1, h2] at h
            · cases h2 : matchTail (a :: rest2) with
              | some v =>
                obtain ⟨s1, r1⟩ := v
                simp [matchAt, hc, ha, h2] at h
                obtain ⟨h3, h4⟩ := h
                subst h3 h4
                have hr := tryAll_recon h2
                simp [hr]
              | none => simp [matchAt, hc, ha, h2] at h
        · simp [matchAt, hc] at h
      · simp [matchAt, h0] at h

theorem renderSegs_raw {steps : Int} :
    ∀ (l : List Char), renderSegs steps (l.map Seg.raw) = Except.ok l := by
  intro l
  induction l with
  | nil => rfl
  | cons c rest ih =>
    simp only [List.map_cons, renderSegs, ih]
    rfl

/-- The segmentation is exact: flattening it reproduces the input text, so
the raw segments are precisely the characters outside matched spans, in
their original places. -/
theorem scanSegs_flatten :
    ∀ {f : Nat} {l : List Char}, l.length ≤ f → flattenSegs (scanSegs f l) = l := by
  intro f
  induction f with
  | zero =>
    intro l hl
    have hnil : l = [] := List.eq_nil_of_length_eq_zero (Nat.le_zero.mp hl)
    subst hnil
    rfl
  | succ f ih =>
    intro l hl
    cases l with
    | nil => rfl
    | cons c rest =>
      cases hm : matchAt (c :: rest) with
      | some v =>
        obtain ⟨cap, after⟩ := v
        have hrec := matchAt_recon hm
        have hafter : after.length ≤ f := by
          have := matchAt_len hm
          simp only [List.length_cons] at this hl
          omega
        simp only [scanSegs, hm, flattenSegs, ih hafter]
        exact hrec.symm
      | none =>
        have hrest : rest.length ≤ f := by
          simp only [List.length_cons] at hl
          omega
        simp only [scanSegs, hm, flattenSegs, ih hrest]

/-- The scanner is the rendering of the segmentation: every raw character is
copied verbatim, and only matched captures are replaced. -/
theorem subAux_renderSegs {steps : Int} :
    ∀ (f : Nat) (l : List Char), subAux steps f l = renderSegs steps (scanSegs f l) := by
  intro f
  induction f with
  | zero =>
    intro l
    cases l with
    | nil => rfl
    | cons c rest => exact (renderSegs_raw (c :: rest)).symm
  | succ f ih =>
    intro l
    cases l with
    | nil => rfl
    | cons c rest =>
      cases hm : matchAt (c :: rest) with
      | some v =>
        obtain ⟨cap, after⟩ := v
        simp only [subAux, scanSegs, hm, renderSegs, ih]
      | none =>
        simp only [subAux, scanSegs, hm, renderSegs, ih]

/-- Claim C5: for every text and every step count, all characters outside
matched chord-token spans are byte-for-byte unchanged: the scan decomposes
the text exactly into raw characters and matched tokens
(`flattenSegs (scanSegsL l) = l`), and the output renders that decomposition
with every raw character emitted verbatim in place and only token captures
replaced; a parenthesis-free prefix is copied verbatim; a text with no match
— including parenthesized content failing the chord grammar — is returned
equal to the input rather than raising an error; and
`transpose_text("(hello) (Am)", 1) = "(hello) (A#m)"`. -/
theorem c5_frame :
    (∀ l : List Char, flattenSegs (scanSegsL l) = l) ∧
    (∀ (steps : Int) (l : List Char),
       transposeTextL l steps = renderSegs steps (scanSegsL l)) ∧
    (∀ (steps : Int) (p t : List Char), '(' ∉ p →
       transposeTextL (p ++ t) steps = (transposeTextL t steps).map (fun r => p ++ r)) ∧
    (∀ (steps : Int) (t : List Char), tokensL t = [] →
       transposeTextL t steps = Except.ok t) ∧
    transpose_text "(hello) (Am)" 1 = Except.ok "(hello) (A#m)" := by
  refine ⟨?_, ?_, ?_, ?_, rfl⟩
  · intro l
    exact scanSegs_flatten (Nat.le_refl _)
  · intro steps l
    exact subAux_renderSegs l.length l
  · intro steps p t hp
    exact transposeTextL_paren_free p t hp
  · intro steps t htok
    exact subAux_no_tokens (Nat.le_refl _) htok

/-- Claim C5 witness: the hypothesis-bearing parts at concrete inputs — a
parenthesis-free prefix copied verbatim, and a token-free text returned
unchanged. -/
theorem c5_witness :
    ('(' ∉ "xy ".data) ∧
    transposeTextL ("xy ".data ++ "(C)".data) 1 =
      (transposeTextL "(C)".data 1).map (fun r => "xy ".data ++ r) ∧
    tokensL "abc".data = [] ∧
    transposeTextL "abc".data 1 = Except.ok "abc".data :=
  ⟨by decide, c5_frame.2.2.1 1 "xy ".data "(C)".data (by decide),
   rfl, c5_frame.2.2.2.1 1 "abc".data rfl⟩

/-! Universal non-matching of a valid root followed by out-of-set trailing
characters, for claim C8. -/

theorem stripLead_eq_of_no_paren :
    ∀ {s z tail r : List Char}, ')' ∉ s → ')' ∉ z →
      stripLead (s ++ [')']) (z ++ ')' :: tail) = some r → s = z := by
  intro s
  induction s with
  | nil =>
    intro z tail r _ hz h
    cases z with
    | nil => rfl
    | cons z0 zr =>
      have hz0 : z0 ≠ ')' := by
        intro he
        exact hz (by rw [← he]; exact List.mem_cons_self _ _)
      simp [stripLead, hz0] at h
  | cons s0 s1 ih =>
    intro z tail r hs hz h
    cases z with
    | nil =>
      have hs0 : (')' : Char) ≠ s0 := by
        intro he
        exact hs (by rw [he]; exact List.mem_cons_self _ _)
      simp [stripLead, hs0] at h
    | cons z0 zr =>
      by_cases hzs : z0 = s0
      · subst hzs
        simp only [List.cons_append, stripLead, if_pos rfl] at h
        have heq := ih (fun hm => hs (List.mem_cons_of_mem _ hm))
          (fun hm => hz (List.mem_cons_of_mem _ hm)) h
        rw [heq]
      · simp [stripLead, hzs] at h

/-- A nonempty, parenthesis-free sequence outside the enumerated suffix set,
followed by `)`, completes no alternative of the suffix group. -/
theorem matchTail_not_suffix {z : List Char} (hne : z ≠ []) (hns : z ∉ SUFFIXES)
    (hnp : ')' ∉ z) : ∀ tail, matchTail (z ++ ')' :: tail) = none := by
  intro tail
  have key : ∀ (ss : List (List Char)), (∀ s ∈ ss, ')' ∉ s) → z ∉ ss →
      tryAll ss (z ++ ')' :: tail) = none := by
    intro ss
    induction ss with
    | nil =>
      intro _ _
      cases z with
      | nil => exact absurd rfl hne
      | cons z0 zr =>
        have hz0 : z0 ≠ ')' := by
          intro he
          exact hnp (by rw [← he]; exact List.mem_cons_self _ _)
        simp [tryAll, hz0]
    | cons s0 ss0 ih =>
      intro hss hzm
      have h1 : trySuf s0 (z ++ ')' :: tail) = none := by
        unfold trySuf
        cases hs : stripLead (s0 ++ [')']) (z ++ ')' :: tail) with
        | none => rfl
        | some r =>
          have heq := stripLead_eq_of_no_paren (hss s0 (List.mem_cons_self _ _)) hnp hs
          subst heq
          exact absurd (List.mem_cons_self _ _) hzm
      simp only [tryAll, h1]
      exact ih (fun s hm => hss s (List.mem_cons_of_mem _ hm))
        (fun hm => hzm (List.mem_cons_of_mem _ hm))
  exact key SUFFIXES (by decide) hns

/-- An accidental character never starts a completion of the suffix group. -/
theorem matchTail_accidental {a : Char} (ha : a = '#' ∨ a = 'b') (w : List Char) :
    matchTail (a :: w) = none := by
  rcases ha with rfl | rfl <;> rfl

/-- Claim C8 (amended): for every parenthesized token made of a valid root —
a letter `A`-`G` with its optional accidental — followed by a nonempty,
parenthesis-free character sequence outside the enumerated suffix set, the
pattern does not match at the token at all, and the whole token, root
included, passes through `transpose_text` unchanged as ordinary text around
the transposition of the remainder; the concrete `(Am9)` instances of the
original claim behave accordingly. -/
theorem c8_unmatched_amended :
    (∀ (c : Char) (acc z tail : List Char) (steps : Int),
       isRootLetter c = true →
       (acc = [] ∨ acc = ['#'] ∨ acc = ['b']) →
       z ≠ [] → z ∉ SUFFIXES → '(' ∉ z → ')' ∉ z →
       (acc = [] → ∀ z0 zr, z = z0 :: zr → ¬(z0 = '#' ∨ z0 = 'b')) →
       matchAt ('(' :: c :: (acc ++ z ++ ')' :: tail)) = none ∧
       transposeTextL ('(' :: c :: (acc ++ z ++ ')' :: tail)) steps =
         (transposeTextL tail steps).map
           (fun r => '(' :: c :: (acc ++ z ++ ')' :: r))) ∧
    (∀ n : Int, transpose_text "(Am9)" n = Except.ok "(Am9)") ∧
    transpose_text "x (Am9) (Am)" 1 = Except.ok "x (Am9) (A#m)" := by
  refine ⟨?_, fun _ => rfl, rfl⟩
  intro c acc z tail steps hc hacc hne hns hzp hzr hhead
  have hz' : ∀ w : List Char, matchTail (z ++ ')' :: w) = none :=
    matchTail_not_suffix hne hns hzr
  have hmn : matchAt ('(' :: c :: (acc ++ z ++ ')' :: tail)) = none := by
    rcases hacc with rfl | rfl | rfl
    · cases z with
      | nil => exact absurd rfl hne
      | cons z0 zr =>
        have hz0 : ¬(z0 = '#' ∨ z0 = 'b') := hhead rfl z0 zr rfl
        have hmt : matchTail (z0 :: (zr ++ ')' :: tail)) = none := hz' tail
        simp [matchAt, hc, hz0, hmt]
    · have hmt1 : matchTail (z ++ ')' :: tail) = none := hz' tail
      have hmt2 : matchTail ('#' :: (z ++ ')' :: tail)) = none :=
        matchTail_accidental (Or.inl rfl) _
      simp [matchAt, hc, hmt1, hmt2]
    · have hmt1 : matchTail (z ++ ')' :: tail) = none := hz' tail
      have hmt2 : matchTail ('b' :: (z ++ ')' :: tail)) = none :=
        matchTail_accidental (Or.inr rfl) _
      simp [matchAt, hc, hmt1, hmt2]
  refine ⟨hmn, ?_⟩
  have hcne : c ≠ '(' := by
    intro he
    subst he
    exact absurd hc (by decide)
  have hfree : '(' ∉ (c :: (acc ++ z ++ [')'])) := by
    intro hm
    rcases List.mem_cons.mp hm with he | hm2
    · exact hcne he.symm
    rcases List.mem_append.mp hm2 with h3 | h3
    · rcases List.mem_append.mp h3 with h4 | h4
      · rcases hacc with rfl | rfl | rfl
        · simp at h4
        · simp at h4
        · simp at h4
      · exact hzp h4
    · simp at h3
  rw [transposeTextL_cons_none hmn]
  have hform : c :: (acc ++ z ++ ')' :: tail) = (c :: (acc ++ z ++ [')'])) ++ tail := by
    simp
  rw [hform, transposeTextL_paren_free _ _ hfree]
  cases transposeTextL tail steps <;> simp <;> rfl

/-- Claim C8 witness: the amended statement at the concrete token `(Am9)`
followed by the remainder `" (C)"`. -/
theorem c8_witness :
    isRootLetter 'A' = true ∧ (['m', '9'] : List Char) ≠ [] ∧
    (['m', '9'] : List Char) ∉ SUFFIXES ∧
    (matchAt ('(' :: 'A' :: ([] ++ ['m', '9'] ++ ')' :: " (C)".data)) = none ∧
     transposeTextL ('(' :: 'A' :: ([] ++ ['m', '9'] ++ ')' :: " (C)".data)) 1 =
       (transposeTextL " (C)".data 1).map
         (fun r => '(' :: 'A' :: ([] ++ ['m', '9'] ++ ')' :: r))) :=
  ⟨rfl, by decide, by decide,
   c8_unmatched_amended.1 'A' [] ['m', '9'] " (C)".data 1 rfl (Or.inl rfl)
     (by decide) (by decide) (by decide) (by decide)
     (fun _ z0 zr hz => by cases hz; decide)⟩

end Transposer
